import Mathlib

/-!
Verification of the Velo RSVP reader core against its specification.

The development shallowly embeds the program's core functions:
* the word focal-point calculator (`getORP`, `splitWordByORP`),
* the epub extraction fold over spine sections (`processSection`),
* the chapter lookup (`getChapterAtWordIndex`),
* the playback scheduler step and seek/speed handlers of the Reader
  component, and the checkpoint-save policy.

JS strings are modelled as `List Char`; JS numbers holding integers as
`ℤ` (so that expressions such as `totalWords - 1` keep their JS value
even when `totalWords = 0`); millisecond intervals as `ℚ`.
-/

namespace Velo

/-! ## Word focal-point calculator (epubParser: getORP / splitWordByORP) -/

/-- `getORP` from the epub parser module.  The source computes
`Math.floor(len * 0.3)` in the final branch; for every word length the
double-precision product `len * 0.3` floors to `3 * len / 10` (the
rounding error of `0.3` is far below the distance of `len * 3 / 10`
to the next integer), so the branch is embedded as exact integer
division. -/
def getORP (word : List Char) : Nat :=
  let len := word.length
  if len ≤ 1 then 0
  else if len ≤ 3 then 1
  else if len ≤ 5 then 1
  else if len ≤ 9 then 2
  else if len ≤ 13 then 3
  else 3 * len / 10

/-- The record returned by `splitWordByORP`. -/
structure OrpSplit where
  before : List Char
  orp : List Char
  after : List Char
  deriving Repr, DecidableEq

/-- `splitWordByORP` from the epub parser module: `before` is
`word.slice(0, orpIndex)`, `orp` is `word[orpIndex] || ''` (the single
character at the focal index, or empty when out of range), `after` is
`word.slice(orpIndex + 1)`. -/
def splitWordByORP (word : List Char) : OrpSplit :=
  let orpIndex := getORP word
  { before := word.take orpIndex
    orp := match word.get? orpIndex with
           | some c => [c]
           | none => []
    after := word.drop (orpIndex + 1) }

/-- The focal-index table of spec §4.2, written row by row:
length ≤ 1 ↦ 0, 2–3 ↦ 1, 4–5 ↦ 1, 6–9 ↦ 2, 10–13 ↦ 3,
> 13 ↦ ⌊length × 0.3⌋. -/
def specFocalIndex (len : Nat) : Nat :=
  if len ≤ 1 then 0
  else if 2 ≤ len ∧ len ≤ 3 then 1
  else if 4 ≤ len ∧ len ≤ 5 then 1
  else if 6 ≤ len ∧ len ≤ 9 then 2
  else if 10 ≤ len ∧ len ≤ 13 then 3
  else 3 * len / 10

/-- The focal index is always within the word (for nonempty words). -/
theorem getORP_lt_length (word : List Char) (h : word ≠ []) :
    getORP word < word.length := by
  have hlen : 0 < word.length := List.length_pos.mpr h
  unfold getORP
  simp only
  split_ifs with h1 h2 h3 h4 h5
  · omega
  · omega
  · omega
  · omega
  · omega
  · have : 3 * word.length < 10 * word.length := by omega
    calc 3 * word.length / 10 ≤ 3 * word.length / 10 := le_refl _
    _ < word.length := Nat.div_lt_of_lt_mul (by omega)

/-- C1: for every word `w` (including the empty word) the three
segments of `splitWordByORP w` concatenate back to `w`:
`before ++ focal ++ after = w`. -/
theorem splitWordByORP_reassembles (word : List Char) :
    (splitWordByORP word).before ++ (splitWordByORP word).orp ++
      (splitWordByORP word).after = word := by
  unfold splitWordByORP
  simp only
  rcases h : word.get? (getORP word) with _ | c
  · -- focal index out of range: the word is shorter than the index
    have hlen : word.length ≤ getORP word := by
      by_contra hc
      push_neg at hc
      rw [List.get?_eq_get hc] at h
      exact Option.noConfusion h
    rw [List.take_of_length_le hlen, List.drop_eq_nil_of_le (by omega)]
    simp
  · -- focal index in range: take/cons/drop decomposition
    have hlt : getORP word < word.length := by
      by_contra hc
      push_neg at hc
      rw [List.get?_eq_none.mpr hc] at h
      exact Option.noConfusion h
    have hc : word[getORP word] = c := by
      have := List.get?_eq_get hlt
      rw [this] at h
      exact Option.some.inj h
    calc word.take (getORP word) ++ [c] ++ word.drop (getORP word + 1)
        = word.take (getORP word) ++ (word[getORP word] :: word.drop (getORP word + 1)) := by
          rw [hc]; simp
      _ = word.take (getORP word) ++ word.drop (getORP word) := by
          rw [List.drop_eq_getElem_cons hlt]
      _ = word := List.take_append_drop _ _

/-- C2: `getORP` depends only on the word's length and agrees with the
spec §4.2 table at every length (in particular at the boundary lengths
1, 3, 5, 9, 13, 14). -/
theorem getORP_matches_spec_table (w : List Char) :
    getORP w = specFocalIndex w.length ∧
      ∀ v : List Char, v.length = w.length → getORP v = getORP w := by
  constructor
  · unfold getORP specFocalIndex
    simp only
    split_ifs <;> first | rfl | omega
  · intro v hv
    unfold getORP
    rw [hv]

/-- Witness for C2 at concrete inputs: a length-2 word follows the
table row `2–3 ↦ 1`, and two words of equal length get equal focal
indices. -/
theorem getORP_matches_spec_table_witness :
    getORP [Char.ofNat 97, Char.ofNat 98] = specFocalIndex 2 ∧
      getORP [Char.ofNat 120, Char.ofNat 121] = getORP [Char.ofNat 97, Char.ofNat 98] :=
  ⟨(getORP_matches_spec_table [Char.ofNat 97, Char.ofNat 98]).1,
   (getORP_matches_spec_table [Char.ofNat 97, Char.ofNat 98]).2
     [Char.ofNat 120, Char.ofNat 121] (by decide)⟩

/-- C10: for every nonempty word the focal index is strictly inside the
word, the focal segment is exactly the single character at that index
(never empty); the focal segment is empty exactly for the empty word. -/
theorem splitWordByORP_focal_single (w : List Char) (hw : w ≠ []) :
    getORP w < w.length ∧
      (∃ h : getORP w < w.length, (splitWordByORP w).orp = [w.get ⟨getORP w, h⟩]) ∧
      ((splitWordByORP w).orp = [] ↔ w = []) := by
  have hlt := getORP_lt_length w hw
  refine ⟨hlt, ⟨hlt, ?_⟩, ?_⟩
  · unfold splitWordByORP
    simp only
    rw [List.get?_eq_get hlt]
  · constructor
    · intro horp
      exfalso
      have : (splitWordByORP w).orp = [w.get ⟨getORP w, hlt⟩] := by
        unfold splitWordByORP
        simp only
        rw [List.get?_eq_get hlt]
      rw [this] at horp
      exact List.noConfusion horp
    · intro h; exact absurd h hw

/-- Witness for C10 on the 5-letter word "hello": focal index 1,
focal segment the single letter at index 1. -/
theorem splitWordByORP_focal_single_witness :
    getORP [Char.ofNat 104, Char.ofNat 101, Char.ofNat 108, Char.ofNat 108, Char.ofNat 111] <
      5 ∧
      (∃ h : getORP [Char.ofNat 104, Char.ofNat 101, Char.ofNat 108, Char.ofNat 108,
          Char.ofNat 111] < 5,
        (splitWordByORP [Char.ofNat 104, Char.ofNat 101, Char.ofNat 108, Char.ofNat 108,
          Char.ofNat 111]).orp =
          [List.get [Char.ofNat 104, Char.ofNat 101, Char.ofNat 108, Char.ofNat 108,
            Char.ofNat 111] ⟨getORP [Char.ofNat 104, Char.ofNat 101, Char.ofNat 108,
              Char.ofNat 108, Char.ofNat 111], h⟩]) ∧
      ((splitWordByORP [Char.ofNat 104, Char.ofNat 101, Char.ofNat 108, Char.ofNat 108,
          Char.ofNat 111]).orp = [] ↔
        [Char.ofNat 104, Char.ofNat 101, Char.ofNat 108, Char.ofNat 108,
          Char.ofNat 111] = ([] : List Char)) :=
  splitWordByORP_focal_single
    [Char.ofNat 104, Char.ofNat 101, Char.ofNat 108, Char.ofNat 108, Char.ofNat 111]
    (by decide)

/-! ## Document extractor (epubParser: parseEpub section loop)

The DOM walking of `parseEpub` is driven by the host's epub library;
what the claims concern is the pure accumulation loop over spine
sections: tokenization, the chapter-acceptance test and the word
append.  A spine section is modelled by what the section branch of the
loop computes from it before that pure part starts: either a load/parse
failure (the `catch` arm) or its heuristic chapter-title candidate
together with its extracted text. -/

/-- `.replace(/\s+/g, ' ')`: every maximal run of whitespace becomes a
single space. -/
def collapseWs : List Char → List Char
  | [] => []
  | c :: cs =>
    match cs with
    | [] => if c.isWhitespace then [' '] else [c]
    | d :: _ =>
      if c.isWhitespace && d.isWhitespace then collapseWs cs
      else (if c.isWhitespace then ' ' else c) :: collapseWs cs

/-- `.trim()`: strip leading and trailing whitespace. -/
def trimWs (s : List Char) : List Char :=
  ((s.dropWhile Char.isWhitespace).reverse.dropWhile Char.isWhitespace).reverse

/-- The tokenization pipeline of the section loop:
`textContent.replace(/\s+/g, ' ').trim().split(' ').filter(w => w.length > 0)`. -/
def tokenizeText (s : List Char) : List (List Char) :=
  ((trimWs (collapseWs s)).splitOn ' ').filter (fun w => w.length != 0)

/-- Title normalization before acceptance:
`chapterTitle.replace(/\s+/g, ' ').trim()`. -/
def normalizeTitle (t : List Char) : List Char :=
  trimWs (collapseWs t)

/-- The `Chapter` interface of the epub parser module. -/
structure Chapter where
  title : List Char
  wordIndex : Nat
  deriving Repr, DecidableEq

/-- What one spine section contributes as input to the accumulation
loop: the `catch` arm of the per-section `try`, or the loaded section's
heuristic title candidate (possibly empty) and text content. -/
inductive SectionOutcome where
  | loadError
  | loaded (chapterTitle : List Char) (text : List Char)
  deriving Repr, DecidableEq

/-- The accumulator of the section loop: the cumulative `words` and
`chapters` arrays. -/
structure BookAcc where
  words : List (List Char)
  chapters : List Chapter
  deriving Repr, DecidableEq

/-- The body of the per-section loop of `parseEpub`: a failed section
contributes nothing; otherwise the chapter is pushed (with `wordIndex`
the word count before the append) exactly when the raw title is truthy,
the section yielded at least one word, and the normalized title's
length is in `(0, 100)`; then the section's words are appended. -/
def processSection (acc : BookAcc) (sec : SectionOutcome) : BookAcc :=
  match sec with
  | .loadError => acc
  | .loaded chapterTitle text =>
    let itemWords := tokenizeText text
    let acc1 :=
      if chapterTitle.length > 0 ∧ itemWords.length > 0 then
        let t := normalizeTitle chapterTitle
        if t.length > 0 ∧ t.length < 100 then
          { acc with chapters := acc.chapters ++ [⟨t, acc.words.length⟩] }
        else acc
      else acc
    { acc1 with words := acc1.words ++ itemWords }

/-- The whole section loop of `parseEpub`, starting from empty `words`
and `chapters`. -/
def parseEpubSections (secs : List SectionOutcome) : BookAcc :=
  secs.foldl processSection ⟨[], []⟩

/-- The invariant maintained by the section loop: chapters strictly
increasing in `wordIndex`, every `wordIndex` below the current word
count. -/
def ChapterInv (acc : BookAcc) : Prop :=
  acc.chapters.Pairwise (fun a b => a.wordIndex < b.wordIndex) ∧
    ∀ c ∈ acc.chapters, c.wordIndex < acc.words.length

theorem processSection_preserves_inv (acc : BookAcc) (sec : SectionOutcome)
    (h : ChapterInv acc) : ChapterInv (processSection acc sec) := by
  obtain ⟨hpw, hbd⟩ := h
  cases sec with
  | loadError => exact ⟨hpw, hbd⟩
  | loaded title text =>
    unfold processSection
    simp only
    split_ifs with h1 h2
    · -- chapter pushed, words appended
      constructor
      · simp only
        rw [List.pairwise_append]
        refine ⟨hpw, List.pairwise_singleton _ _, ?_⟩
        intro a ha b hb
        rw [List.mem_singleton] at hb
        subst hb
        exact hbd a ha
      · intro c hc
        simp only [List.length_append]
        simp only [List.mem_append, List.mem_singleton] at hc
        rcases hc with hc | hc
        · have := hbd c hc
          omega
        · subst hc
          simp only
          omega
    · refine ⟨hpw, ?_⟩
      intro c hc
      have := hbd c hc
      simp only [List.length_append]
      omega
    · refine ⟨hpw, ?_⟩
      intro c hc
      have := hbd c hc
      simp only [List.length_append]
      omega

theorem foldl_processSection_inv (secs : List SectionOutcome) (acc : BookAcc)
    (h : ChapterInv acc) : ChapterInv (secs.foldl processSection acc) := by
  induction secs generalizing acc with
  | nil => exact h
  | cons s ss ih =>
    exact ih _ (processSection_preserves_inv acc s h)

/-- C5: for every sequence of section outcomes, the resulting chapter
sequence has strictly increasing `wordIndex`, and every chapter's
`wordIndex` lies in `[0, words.length)`. -/
theorem parseEpubSections_chapters_sorted_bounded (secs : List SectionOutcome) :
    (parseEpubSections secs).chapters.Pairwise (fun a b => a.wordIndex < b.wordIndex) ∧
      ∀ c ∈ (parseEpubSections secs).chapters,
        c.wordIndex < (parseEpubSections secs).words.length := by
  have h := foldl_processSection_inv secs ⟨[], []⟩ ⟨List.Pairwise.nil, by intro c hc; cases hc⟩
  exact h

/-- Witness for C5 on a two-section book: the chapter list is sorted and
the chapter starting at word index 2 lies inside the 4-word document. -/
theorem parseEpubSections_chapters_sorted_bounded_witness :
    (parseEpubSections [SectionOutcome.loaded "One".toList "hello world".toList,
        SectionOutcome.loaded "Two".toList "a b".toList]).chapters.Pairwise
        (fun a b => a.wordIndex < b.wordIndex) ∧
      (Chapter.mk "Two".toList 2).wordIndex <
        (parseEpubSections [SectionOutcome.loaded "One".toList "hello world".toList,
          SectionOutcome.loaded "Two".toList "a b".toList]).words.length :=
  ⟨(parseEpubSections_chapters_sorted_bounded _).1,
   (parseEpubSections_chapters_sorted_bounded _).2 _ (by decide)⟩

/-- C6: a failed or word-free section never produces a chapter mark;
when the chapter list does change, it grows by exactly the one mark
whose title is the normalized candidate with final length in `[1, 99]`,
whose section contributed at least one word, and whose `wordIndex` is
the running word count before the section's words are appended. -/
theorem processSection_chapter_acceptance (acc : BookAcc) (title text : List Char) :
    (processSection acc SectionOutcome.loadError).chapters = acc.chapters ∧
      (tokenizeText text = [] →
        (processSection acc (SectionOutcome.loaded title text)).chapters = acc.chapters) ∧
      ((processSection acc (SectionOutcome.loaded title text)).chapters ≠ acc.chapters →
        (processSection acc (SectionOutcome.loaded title text)).chapters =
            acc.chapters ++ [⟨normalizeTitle title, acc.words.length⟩] ∧
          1 ≤ (normalizeTitle title).length ∧ (normalizeTitle title).length ≤ 99 ∧
          tokenizeText text ≠ []) := by
  refine ⟨rfl, ?_, ?_⟩
  · intro hempty
    unfold processSection
    simp only
    split_ifs with h1 h2
    · exact absurd (hempty ▸ h1.2) (by simp)
    · rfl
    · rfl
  · intro hne
    unfold processSection at hne ⊢
    simp only at hne ⊢
    split_ifs at hne ⊢ with h1 h2
    · refine ⟨rfl, by omega, by omega, ?_⟩
      intro hempty
      rw [hempty] at h1
      exact absurd h1.2 (by simp)
    · exact absurd rfl hne
    · exact absurd rfl hne

/-- Witness for C6: an empty section adds no chapter; a titled section
with two words adds exactly one mark at word index 0. -/
theorem processSection_chapter_acceptance_witness :
    (processSection ⟨[], []⟩ (SectionOutcome.loaded "T".toList "".toList)).chapters =
        ([] : List Chapter) ∧
      ((processSection ⟨[], []⟩ (SectionOutcome.loaded "T".toList "a b".toList)).chapters =
          [] ++ [⟨normalizeTitle "T".toList, 0⟩] ∧
        1 ≤ (normalizeTitle "T".toList).length ∧ (normalizeTitle "T".toList).length ≤ 99 ∧
        tokenizeText "a b".toList ≠ []) :=
  ⟨(processSection_chapter_acceptance ⟨[], []⟩ "T".toList "".toList).2.1 (by decide),
   (processSection_chapter_acceptance ⟨[], []⟩ "T".toList "a b".toList).2.2 (by decide)⟩

/-- C8: a per-section load failure is fully isolated: the failed
section leaves the accumulator untouched, and the overall extraction of
any spine equals the extraction with the failed section removed — the
remaining sections' words and chapters are all still accumulated. -/
theorem parseEpubSections_failure_isolated (acc : BookAcc)
    (xs ys : List SectionOutcome) :
    processSection acc SectionOutcome.loadError = acc ∧
      parseEpubSections (xs ++ SectionOutcome.loadError :: ys) =
        parseEpubSections (xs ++ ys) := by
  refine ⟨rfl, ?_⟩
  unfold parseEpubSections
  rw [List.foldl_append, List.foldl_append, List.foldl_cons]
  rfl

/-! ## Playback scheduler (Reader component)

The Reader's playback state is `wordIndex`, `wpm` and `isPlaying`.
JS numbers holding indices are modelled as `ℤ` so that
`book.totalWords - 1` keeps its JS value even for an empty book;
millisecond intervals as `ℚ` since `60000 / wpm` need not be whole. -/

structure ReaderState where
  wordIndex : ℤ
  wpm : ℤ
  isPlaying : Bool
  deriving Repr, DecidableEq

/-- `isComplete = wordIndex >= book.totalWords - 1`. -/
def isCompleteB (totalWords : ℤ) (s : ReaderState) : Bool :=
  decide (totalWords - 1 ≤ s.wordIndex)

/-- `const interval = 60000 / wpm` — the delay passed to the scheduled
tick, computed from the wpm current at scheduling time. -/
def tickInterval (wpm : ℤ) : ℚ :=
  60000 / (wpm : ℚ)

/-- The tick body: `setWordIndex(prev => Math.min(prev + 1, book.totalWords - 1))`. -/
def tickAdvance (totalWords : ℤ) (s : ReaderState) : ReaderState :=
  { s with wordIndex := min (s.wordIndex + 1) (totalWords - 1) }

/-- The auto-pause-at-end effect:
`if (isComplete && isPlaying) setIsPlaying(false)`. -/
def autoPauseAtEnd (totalWords : ℤ) (s : ReaderState) : ReaderState :=
  if isCompleteB totalWords s && s.isPlaying then { s with isPlaying := false } else s

/-- One round of the playback-loop effect: when playing and not
complete, a tick is scheduled after `tickInterval s.wpm` ms; firing it
advances the index and then the auto-pause effect runs.  Otherwise no
tick is scheduled. -/
def playbackStep (totalWords : ℤ) (s : ReaderState) : Option (ℚ × ReaderState) :=
  if s.isPlaying && !(isCompleteB totalWords s) then
    some (tickInterval s.wpm, autoPauseAtEnd totalWords (tickAdvance totalWords s))
  else none

/-- C3: while playing and not at the end, the scheduled tick interval
is `60000 / wpm` ms at current wpm (200 ms at 300 wpm, 100 ms at
600 wpm); the tick advances `wordIndex` by exactly 1, clamped to
`totalWords - 1`; and on reaching the last index the scheduler clears
`isPlaying` and schedules no further tick. -/
theorem playbackStep_tick_spec (totalWords : ℤ) (s : ReaderState)
    (hp : s.isPlaying = true) (hc : isCompleteB totalWords s = false) :
    tickInterval 300 = 200 ∧ tickInterval 600 = 100 ∧
      ∃ s', playbackStep totalWords s = some (tickInterval s.wpm, s') ∧
        s'.wordIndex = min (s.wordIndex + 1) (totalWords - 1) ∧
        s'.wordIndex = s.wordIndex + 1 ∧
        (s'.wordIndex = totalWords - 1 →
          s'.isPlaying = false ∧ playbackStep totalWords s' = none) := by
  have h300 : tickInterval 300 = 200 := by norm_num [tickInterval]
  have h600 : tickInterval 600 = 100 := by norm_num [tickInterval]
  simp only [isCompleteB, decide_eq_false_iff_not, not_le] at hc
  refine ⟨h300, h600, autoPauseAtEnd totalWords (tickAdvance totalWords s), ?_, ?_, ?_, ?_⟩
  · simp [playbackStep, hp, isCompleteB, hc.le, not_le.mpr hc]
  · simp only [autoPauseAtEnd]
    split_ifs with h
    · simp [tickAdvance]
    · simp [tickAdvance]
  · have hmin : min (s.wordIndex + 1) (totalWords - 1) = s.wordIndex + 1 := by omega
    simp only [autoPauseAtEnd]
    split_ifs with h
    · simp [tickAdvance, hmin]
    · simp [tickAdvance, hmin]
  · intro hlast
    have hw : (autoPauseAtEnd totalWords (tickAdvance totalWords s)).wordIndex =
        min (s.wordIndex + 1) (totalWords - 1) := by
      simp only [autoPauseAtEnd]
      split_ifs with h
      · simp [tickAdvance]
      · simp [tickAdvance]
    rw [hw] at hlast
    have hcomp : isCompleteB totalWords (tickAdvance totalWords s) = true := by
      simp only [isCompleteB, decide_eq_true_eq, tickAdvance]
      omega
    have hnp : (autoPauseAtEnd totalWords (tickAdvance totalWords s)).isPlaying = false := by
      simp only [autoPauseAtEnd, hcomp]
      simp [tickAdvance, hp]
    refine ⟨hnp, ?_⟩
    simp [playbackStep, hnp]

/-- Witness for C3: a 10-word book at index 0, playing at 300 wpm. -/
theorem playbackStep_tick_spec_witness :
    tickInterval 300 = 200 ∧ tickInterval 600 = 100 ∧
      ∃ s', playbackStep 10 ⟨0, 300, true⟩ = some (tickInterval 300, s') ∧
        s'.wordIndex = min ((0 : ℤ) + 1) (10 - 1) ∧
        s'.wordIndex = 0 + 1 ∧
        (s'.wordIndex = 10 - 1 →
          s'.isPlaying = false ∧ playbackStep 10 s' = none) :=
  playbackStep_tick_spec 10 ⟨0, 300, true⟩ rfl (by decide)

/-! ## Seek and speed handlers (Reader component) -/

/-- `handleSkipBack`: `setWordIndex(prev => Math.max(0, prev - 50))`. -/
def handleSkipBack (s : ReaderState) : ReaderState :=
  { s with wordIndex := max 0 (s.wordIndex - 50) }

/-- `handleSkipForward`: `setWordIndex(prev => Math.min(book.totalWords - 1, prev + 50))`. -/
def handleSkipForward (totalWords : ℤ) (s : ReaderState) : ReaderState :=
  { s with wordIndex := min (totalWords - 1) (s.wordIndex + 50) }

/-- `handleJumpToChapter`: sets `wordIndex` to the mark's index
directly (no clamp) and pauses. -/
def handleJumpToChapter (chapterWordIndex : ℤ) (s : ReaderState) : ReaderState :=
  { s with wordIndex := chapterWordIndex, isPlaying := false }

/-- `handleSpeedChange`: `setWpm(prev => Math.max(100, Math.min(1000, prev + delta)))`. -/
def handleSpeedChange (delta : ℤ) (s : ReaderState) : ReaderState :=
  { s with wpm := max 100 (min 1000 (s.wpm + delta)) }

/-- `handleProgressClick`: `setWordIndex(Math.floor(percent * book.totalWords))` —
note: no clamp is applied. -/
def handleProgressClick (totalWords : ℤ) (percent : ℚ) (s : ReaderState) : ReaderState :=
  { s with wordIndex := ⌊percent * (totalWords : ℚ)⌋ }

/-- C4 counterexample: clicking the progress bar at fraction 1 on a
100-word book sets `wordIndex = 100`, which is not clamped to the valid
range `[0, 99]` — refuting "every seek operation sets wordIndex to a
value clamped to [0, words.length - 1] for every input, including a
fraction of 1". -/
theorem handleProgressClick_unclamped_cex :
    (handleProgressClick 100 1 ⟨0, 300, false⟩).wordIndex = 100 ∧
      ¬(handleProgressClick 100 1 ⟨0, 300, false⟩).wordIndex ≤ 100 - 1 := by
  have h : (handleProgressClick 100 1 ⟨0, 300, false⟩).wordIndex = 100 := by
    simp [handleProgressClick]
  exact ⟨h, by rw [h]; omega⟩

/-- C4 (amended): starting from an in-range index, skip-back and
skip-forward keep `wordIndex` in `[0, totalWords - 1]`; a chapter jump
sets exactly the mark's index (in range whenever the mark is); speed
changes clamp `wpm` to `[100, 1000]` for every delta; but
`seekToFraction` is not clamped: it sets `⌊f · totalWords⌋`, in range
for `0 ≤ f < 1` and equal to `totalWords` (one past the end) at `f = 1`. -/
theorem seek_speed_clamping (totalWords : ℤ) (s : ReaderState) (delta ci : ℤ) (f : ℚ)
    (hw0 : 0 ≤ s.wordIndex) (hw1 : s.wordIndex ≤ totalWords - 1) (htw : 1 ≤ totalWords) :
    (0 ≤ (handleSkipBack s).wordIndex ∧ (handleSkipBack s).wordIndex ≤ totalWords - 1) ∧
      (0 ≤ (handleSkipForward totalWords s).wordIndex ∧
        (handleSkipForward totalWords s).wordIndex ≤ totalWords - 1) ∧
      (handleJumpToChapter ci s).wordIndex = ci ∧
      (100 ≤ (handleSpeedChange delta s).wpm ∧ (handleSpeedChange delta s).wpm ≤ 1000) ∧
      (handleProgressClick totalWords f s).wordIndex = ⌊f * (totalWords : ℚ)⌋ ∧
      (0 ≤ f → f < 1 →
        0 ≤ (handleProgressClick totalWords f s).wordIndex ∧
          (handleProgressClick totalWords f s).wordIndex ≤ totalWords - 1) ∧
      (f = 1 → (handleProgressClick totalWords f s).wordIndex = totalWords) := by
  refine ⟨⟨?_, ?_⟩, ⟨?_, ?_⟩, rfl, ⟨?_, ?_⟩, rfl, ?_, ?_⟩
  · simp only [handleSkipBack]; omega
  · simp only [handleSkipBack]; omega
  · simp only [handleSkipForward]; omega
  · simp only [handleSkipForward]; omega
  · simp only [handleSpeedChange]; omega
  · simp only [handleSpeedChange]; omega
  · intro hf0 hf1
    constructor
    · simp only [handleProgressClick]
      have : (0 : ℚ) ≤ f * (totalWords : ℚ) := by
        apply mul_nonneg hf0
        exact_mod_cast (by omega : (0 : ℤ) ≤ totalWords)
      exact Int.le_floor.mpr (by exact_mod_cast this)
    · simp only [handleProgressClick]
      have hlt : f * (totalWords : ℚ) < (totalWords : ℚ) := by
        have htwq : (0 : ℚ) < (totalWords : ℚ) := by exact_mod_cast (by omega : (0:ℤ) < totalWords)
        calc f * (totalWords : ℚ) < 1 * (totalWords : ℚ) :=
              mul_lt_mul_of_pos_right hf1 htwq
          _ = (totalWords : ℚ) := one_mul _
      have := Int.floor_lt.mpr (by exact_mod_cast hlt)
      omega
  · intro hf
    subst hf
    simp only [handleProgressClick, one_mul]
    exact Int.floor_intCast _

/-- Witness for C4 (amended): a 100-word book at index 10, playing at
300 wpm, with a +500 speed delta, a chapter mark at 5 and fraction 1/2. -/
theorem seek_speed_clamping_witness :
    (0 ≤ (handleSkipBack ⟨10, 300, true⟩).wordIndex ∧
        (handleSkipBack ⟨10, 300, true⟩).wordIndex ≤ 100 - 1) ∧
      (0 ≤ (handleSkipForward 100 ⟨10, 300, true⟩).wordIndex ∧
        (handleSkipForward 100 ⟨10, 300, true⟩).wordIndex ≤ 100 - 1) ∧
      (handleJumpToChapter 5 ⟨10, 300, true⟩).wordIndex = 5 ∧
      (100 ≤ (handleSpeedChange 500 ⟨10, 300, true⟩).wpm ∧
        (handleSpeedChange 500 ⟨10, 300, true⟩).wpm ≤ 1000) ∧
      (handleProgressClick 100 (1 / 2) ⟨10, 300, true⟩).wordIndex =
        ⌊(1 / 2 : ℚ) * ((100 : ℤ) : ℚ)⌋ ∧
      ((0 : ℚ) ≤ 1 / 2 → (1 / 2 : ℚ) < 1 →
        0 ≤ (handleProgressClick 100 (1 / 2) ⟨10, 300, true⟩).wordIndex ∧
          (handleProgressClick 100 (1 / 2) ⟨10, 300, true⟩).wordIndex ≤ 100 - 1) ∧
      ((1 / 2 : ℚ) = 1 →
        (handleProgressClick 100 (1 / 2) ⟨10, 300, true⟩).wordIndex = 100) :=
  seek_speed_clamping 100 ⟨10, 300, true⟩ 500 5 (1 / 2) (by decide) (by decide) (by decide)

/-! ## Chapter lookup (Reader: getChapterAtWordIndex) -/

/-- The scan loop of `getChapterAtWordIndex`: walk the chapter list in
order, remembering the latest mark whose `wordIndex` is at most the
target, and `break` at the first mark beyond it.  `i` is the position
of the head of the remaining list, `res` the remembered result. -/
def locChapterLoop (target : ℤ) : List Chapter → Nat → Chapter × Nat → Chapter × Nat
  | [], _, res => res
  | c :: cs, i, res =>
    if (c.wordIndex : ℤ) ≤ target then locChapterLoop target cs (i + 1) (c, i)
    else res

/-- `getChapterAtWordIndex` from the Reader component: `null` for an
empty chapter list, otherwise the scan starting from
`{ chapter: chapters[0], index: 0 }`. -/
def getChapterAtWordIndex (chapters : List Chapter) (target : ℤ) :
    Option (Chapter × Nat) :=
  match chapters with
  | [] => none
  | c0 :: _ => some (locChapterLoop target chapters 0 (c0, 0))

/-- The spec's description of `locateChapter`, stated in its own words
for comparison: the last chapter mark whose `wordIndex ≤ index`. -/
def specLocateChapter (chapters : List Chapter) (target : ℤ) : Option Chapter :=
  (chapters.filter (fun c => decide ((c.wordIndex : ℤ) ≤ target))).getLast?

theorem getLast?_cons_eq_some {α : Type} (l : List α) (d : α) :
    (d :: l).getLast? = some ((l.getLast?).getD d) := by
  induction l generalizing d with
  | nil => rfl
  | cons b l' ih =>
    rw [List.getLast?_cons_cons, ih b]
    simp

theorem locChapterLoop_fst (target : ℤ) (cs : List Chapter)
    (hs : cs.Pairwise (fun a b => a.wordIndex < b.wordIndex)) :
    ∀ (i j : Nat) (c : Chapter),
      (locChapterLoop target cs i (c, j)).1 =
        ((cs.filter (fun d => decide ((d.wordIndex : ℤ) ≤ target))).getLast?).getD c := by
  induction cs with
  | nil => intro i j c; rfl
  | cons d ds ih =>
    intro i j c
    rw [List.pairwise_cons] at hs
    obtain ⟨hd, hds⟩ := hs
    by_cases hle : (d.wordIndex : ℤ) ≤ target
    · rw [locChapterLoop]
      simp only [hle, if_true]
      rw [ih hds (i + 1) i d]
      have hfilter : (d :: ds).filter (fun e => decide ((e.wordIndex : ℤ) ≤ target)) =
          d :: ds.filter (fun e => decide ((e.wordIndex : ℤ) ≤ target)) := by
        simp [List.filter_cons, hle]
      rw [hfilter, getLast?_cons_eq_some]
      simp
    · rw [locChapterLoop]
      simp only [hle, if_false]
      have hnil : (d :: ds).filter (fun e => decide ((e.wordIndex : ℤ) ≤ target)) = [] := by
        rw [List.filter_eq_nil_iff]
        intro e he
        rcases List.mem_cons.mp he with he | he
        · subst he; simpa using hle
        · have := hd e he
          simp only [decide_eq_true_eq]
          push_neg at hle
          omega
      rw [hnil]
      rfl

/-- C7 counterexample: with the single (sorted) chapter list
`[{title "A", wordIndex 5}]` and index 0, no mark has `wordIndex ≤ 0`
(the spec-side lookup is `none`), yet the code returns that first
chapter rather than `null`. -/
theorem getChapterAtWordIndex_before_first_cex :
    (getChapterAtWordIndex [⟨"A".toList, 5⟩] 0).map Prod.fst =
        some ⟨"A".toList, 5⟩ ∧
      specLocateChapter [⟨"A".toList, 5⟩] 0 = none ∧
      [Chapter.mk "A".toList 5].Pairwise (fun a b => a.wordIndex < b.wordIndex) := by
  refine ⟨rfl, rfl, ?_⟩
  simp

/-- C7 (amended): for a sorted chapter list the lookup returns `null`
exactly when the list is empty; when the target is at or past the first
mark it returns the last mark whose `wordIndex ≤ target` (the spec's
description), but when the target is before the first mark it returns
the first mark instead of `null`. -/
theorem getChapterAtWordIndex_spec (chapters : List Chapter) (target : ℤ)
    (hs : chapters.Pairwise (fun a b => a.wordIndex < b.wordIndex)) :
    (getChapterAtWordIndex chapters target = none ↔ chapters = []) ∧
      (getChapterAtWordIndex chapters target).map Prod.fst =
        match chapters with
        | [] => none
        | c0 :: _ =>
          if (c0.wordIndex : ℤ) ≤ target then specLocateChapter chapters target
          else some c0 := by
  cases chapters with
  | nil => exact ⟨by simp [getChapterAtWordIndex], rfl⟩
  | cons c0 cs =>
    constructor
    · simp [getChapterAtWordIndex]
    · rw [List.pairwise_cons] at hs
      obtain ⟨hd, hcs⟩ := hs
      by_cases hle : (c0.wordIndex : ℤ) ≤ target
      · simp only [getChapterAtWordIndex, Option.map_some']
        rw [locChapterLoop]
        simp only [hle, if_true]
        rw [locChapterLoop_fst target cs hcs (0 + 1) 0 c0]
        have hfilter : (c0 :: cs).filter (fun e => decide ((e.wordIndex : ℤ) ≤ target)) =
            c0 :: cs.filter (fun e => decide ((e.wordIndex : ℤ) ≤ target)) := by
          simp [List.filter_cons, hle]
        simp only [specLocateChapter, hfilter, getLast?_cons_eq_some, hle, if_true]
      · simp only [getChapterAtWordIndex, Option.map_some']
        rw [locChapterLoop]
        simp only [hle, if_false]

/-- Witness for C7 (amended) on the sorted list
`[{“A”, 0}, {“B”, 10}]` at target 5. -/
theorem getChapterAtWordIndex_spec_witness :
    (getChapterAtWordIndex [⟨"A".toList, 0⟩, ⟨"B".toList, 10⟩] 5 = none ↔
        [Chapter.mk "A".toList 0, Chapter.mk "B".toList 10] = []) ∧
      (getChapterAtWordIndex [⟨"A".toList, 0⟩, ⟨"B".toList, 10⟩] 5).map Prod.fst =
        (if ((Chapter.mk "A".toList 0).wordIndex : ℤ) ≤ 5 then
          specLocateChapter [⟨"A".toList, 0⟩, ⟨"B".toList, 10⟩] 5
        else some ⟨"A".toList, 0⟩) :=
  getChapterAtWordIndex_spec [⟨"A".toList, 0⟩, ⟨"B".toList, 10⟩] 5 (by simp)

/-! ## Checkpoint emission policy (Reader: debounced save and save-on-pause)

The two save effects are driven by irregular tick/pause events.  The
debounced effect fires on an index/speed change and emits only when
`Date.now() - lastSaveRef.current > 2000`, updating `lastSaveRef`; the
save-on-pause effect emits unconditionally when playback stops and does
not touch `lastSaveRef`.  (Both are gated on `progressLoaded`, which
holds throughout a reading session.) -/

inductive PlayEvent where
  | tick (now : ℤ)
  | pause (now : ℤ)
  deriving Repr, DecidableEq

inductive EmitKind where
  | debounced
  | onPause
  deriving Repr, DecidableEq

/-- Processing one event: the new `lastSaveRef` value and the
checkpoint calls emitted (time and which effect emitted). -/
def stepSave (last : ℤ) : PlayEvent → ℤ × List (ℤ × EmitKind)
  | .tick now => if now - last > 2000 then (now, [(now, .debounced)]) else (last, [])
  | .pause now => (last, [(now, .onPause)])

/-- Processing a whole event trace, threading `lastSaveRef`. -/
def runSaves (last : ℤ) : List PlayEvent → List (ℤ × EmitKind)
  | [] => []
  | e :: es => (stepSave last e).2 ++ runSaves (stepSave last e).1 es

/-- The times of the debounced (during-playback) checkpoint calls. -/
def debouncedTimes (out : List (ℤ × EmitKind)) : List ℤ :=
  out.filterMap (fun p => if p.2 = EmitKind.debounced then some p.1 else none)

theorem runSaves_debounced_spread (es : List PlayEvent) :
    ∀ last : ℤ,
      (debouncedTimes (runSaves last es)).Pairwise (fun a b => a + 2000 < b) ∧
        ∀ t ∈ debouncedTimes (runSaves last es), last + 2000 < t := by
  induction es with
  | nil =>
    intro last
    exact ⟨List.Pairwise.nil, by intro t ht; cases ht⟩
  | cons e es ih =>
    intro last
    cases e with
    | tick now =>
      by_cases h : now - last > 2000
      · have hrun : runSaves last (PlayEvent.tick now :: es) =
            (now, EmitKind.debounced) :: runSaves now es := by
          simp [runSaves, stepSave, h]
        have hdt : debouncedTimes (runSaves last (PlayEvent.tick now :: es)) =
            now :: debouncedTimes (runSaves now es) := by
          rw [hrun]
          simp [debouncedTimes]
        rw [hdt]
        obtain ⟨hpw, hall⟩ := ih now
        constructor
        · rw [List.pairwise_cons]
          exact ⟨fun t ht => hall t ht, hpw⟩
        · intro t ht
          rcases List.mem_cons.mp ht with ht | ht
          · omega
          · have := hall t ht
            omega
      · have hrun : runSaves last (PlayEvent.tick now :: es) = runSaves last es := by
          simp [runSaves, stepSave, h]
        rw [hrun]
        exact ih last
    | pause now =>
      have hrun : runSaves last (PlayEvent.pause now :: es) =
          (now, EmitKind.onPause) :: runSaves last es := by
        simp [runSaves, stepSave]
      have hdt : debouncedTimes (runSaves last (PlayEvent.pause now :: es)) =
          debouncedTimes (runSaves last es) := by
        rw [hrun]
        simp [debouncedTimes]
      rw [hdt]
      exact ih last

/-- C9: every `pause` emits a checkpoint at its own time immediately
(without consuming the debounce budget), and the debounced checkpoints
of any event trace are spaced more than 2000 ms apart — so any rolling
2000 ms window contains at most one debounced checkpoint call, however
many ticks occur in it. -/
theorem checkpoint_coalescing (l0 : ℤ) (es : List PlayEvent) :
    (∀ last now : ℤ, stepSave last (PlayEvent.pause now) = (last, [(now, EmitKind.onPause)])) ∧
      (debouncedTimes (runSaves l0 es)).Pairwise (fun a b => a + 2000 < b) ∧
      ∀ w : ℤ,
        ((debouncedTimes (runSaves l0 es)).filter
          (fun t => decide (w ≤ t ∧ t < w + 2000))).length ≤ 1 := by
  obtain ⟨hpw, _⟩ := runSaves_debounced_spread es l0
  refine ⟨fun _ _ => rfl, hpw, ?_⟩
  intro w
  have hpf := hpw.filter (fun t => decide (w ≤ t ∧ t < w + 2000))
  rcases hf : (debouncedTimes (runSaves l0 es)).filter
      (fun t => decide (w ≤ t ∧ t < w + 2000)) with _ | ⟨a, _ | ⟨b, t⟩⟩
  · simp
  · simp
  · exfalso
    rw [hf] at hpf
    have hab : a + 2000 < b := by
      rw [List.pairwise_cons] at hpf
      exact hpf.1 b (by simp)
    have ha : w ≤ a ∧ a < w + 2000 := by
      have := List.mem_filter.mp (hf ▸ (by simp : a ∈ (a :: b :: t)))
      simpa using this.2
    have hb : w ≤ b ∧ b < w + 2000 := by
      have := List.mem_filter.mp (hf ▸ (by simp : b ∈ (a :: b :: t)))
      simpa using this.2
    omega

end Velo
